import Mathlib

/-!
Verification of the `charmath` linear-algebra core of the charengine repository.

Shallow embedding conventions:
- The exact scalar claims (matrix algebra, quaternions) are modelled over `ℚ`,
  the idealisation of the library's signed/floating scalar types, for which the
  `charmath_numeric!` macro instantiates `neg(a) = -1 * a`, `zero() = 0`,
  `one() = 1`, `half() = 0.5`.  The trait's transcendental operations
  (`sin`, `cos`, `sqrt`) are passed as explicit function parameters, mirroring
  their role as abstract methods of `CharMathNumeric`.
- `GenericMatrix<N>` (a `Vec<Vec<N>>`) is `List (List ℚ)`; cell reads go through
  a total `getD`-based accessor, and the well-formedness invariant (every row has
  the declared width) appears as an explicit hypothesis where the source would
  otherwise panic on a ragged matrix.
- The `SquareMatrix` trait algorithms (`get_cofactor`, `determinant_recursive`,
  `adjoint`, `inverse`) act through `get_value_ref` only, so they are embedded
  over an unbounded cell function `ℕ → ℕ → ℚ` together with the size `n`
  (entries outside the leading `n × n` block are the untouched `cm_copy` data,
  exactly as in the source, which copies `self` and overwrites the leading block).
- Rust panics (assertion failures, out-of-range `Vec` indexing, overflow traps)
  are modelled by `Option`: `none` is a panic.
-/

namespace Charmath

/-- Model of `CharMathNumeric::neg` for the unsigned integer instantiations
`charmath_numeric!(u8/u16/u32/u64/u128/usize, _, 1)`: the macro expands to
`neg(a) = 1 * a` (the `$NEG_SYM` parameter is `+1` for the unsigned types).
Values of a `w`-bit unsigned type are naturals below `2 ^ w`; the `Option`
models the (debug-mode) overflow trap of the multiplication, which is the only
way this function could fail. -/
def negUnsigned (w a : ℕ) : Option ℕ :=
  if 1 * a < 2 ^ w then some (1 * a) else none

/-- Model of `vector_utils::array_dot`: `Σ_i a[i] * b[i]` over `0..a.len()`.
The source asserts `a.len() == b.len()`; every embedded call site below
satisfies that assertion, so the embedding is the plain sum. -/
def array_dot (a b : List ℚ) : ℚ :=
  ∑ i in Finset.range a.length, a.getD i 0 * b.getD i 0

/-- Model of the fixed-arity constructor `new_arr(arr)` shared by the
`vector_def!` macro (vectors of arity `$SIZE`) and `Quaternion::new_arr`
(arity 4): component `i` is `arr[i]` when `i < arr.len()` and scalar zero
otherwise, for `i` in `0..size`. Both sources guard the array read with
`i < arr.len()`, so the constructor never panics. -/
def new_arr (size : ℕ) (arr : List ℚ) : List ℚ :=
  (List.range size).map (fun i => if i < arr.length then arr.getD i 0 else 0)

/-- Model of `Vector::num_op` with the multiplication operand
(`mul_num`): every component is multiplied by the scalar. -/
def mul_num (v : List ℚ) (s : ℚ) : List ℚ :=
  v.map (fun c => c * s)

/-- Model of `Vector::num_op` with the division operand (`div_num`). -/
def div_num (v : List ℚ) (s : ℚ) : List ℚ :=
  v.map (fun c => c / s)

/-- Model of `VectorBase::len`: `sqrt` of the self dot product; `sqrt` is the
abstract `CharMathNumeric::sqrt` method, passed as a parameter. -/
def vec_len (sqrt : ℚ → ℚ) (v : List ℚ) : ℚ :=
  sqrt (array_dot v v)

/-- Model of `Vector::normalized`: `self.div_num(self.len())`. -/
def normalized (sqrt : ℚ → ℚ) (v : List ℚ) : List ℚ :=
  div_num v (vec_len sqrt v)

/-- Model of `Quaternion::complex_real(complex, real)`:
`Vec4::new(complex.get_x(), complex.get_y(), complex.get_z(), real)`. -/
def complex_real (c : List ℚ) (r : ℚ) : List ℚ :=
  [c.getD 0 0, c.getD 1 0, c.getD 2 0, r]

/-- Model of `Quaternion::angle_axis(angle, axis)`:
`complex_real(axis.mul_num(sin(angle * half())), cos(angle * half()))`,
with `half() = 1/2` for the float scalars. The trigonometric methods of the
scalar are abstract parameters. Note the source does NOT normalise `axis`. -/
def angle_axis (sin cos : ℚ → ℚ) (angle : ℚ) (axis : List ℚ) : List ℚ :=
  complex_real (mul_num axis (sin (angle * (1 / 2)))) (cos (angle * (1 / 2)))

/-- A `GenericMatrix<N>` is a `Vec<Vec<N>>`. -/
abbrev GMat := List (List ℚ)

/-- Model of `GenericMatrix::get_height`: the number of rows. -/
def get_height (m : GMat) : ℕ := m.length

/-- Model of `GenericMatrix::get_width`: `0` when there are no rows, else the
length of row 0. -/
def get_width (m : GMat) : ℕ :=
  match m with
  | [] => 0
  | r :: _ => r.length

/-- Total model of the cell read `self.mat[h][w]`; out-of-range reads (which
panic in the source) default to `0`. Theorems that rely on cell reads carry
the well-formedness hypothesis `WF` making every read performed in range. -/
def getv (m : GMat) (i j : ℕ) : ℚ :=
  (m.getD i []).getD j 0

/-- Representation invariant of `GenericMatrix`: every row has the declared
width (true of every matrix built by `from_flat`/`sized`; `from_vec` can
violate it, and the source then panics on row indexing). -/
def WF (m : GMat) : Prop :=
  ∀ r ∈ m, r.length = get_width m

/-- Matrix of height `h`, width `w`, with cell `(i, j)` given by `g i j`. -/
def mkMat (h w : ℕ) (g : ℕ → ℕ → ℚ) : GMat :=
  (List.range h).map (fun i => (List.range w).map (fun j => g i j))

/-- Model of `GenericMatrix::from_flat(arr, h, w)`: row-major fill, reading
`arr[i * w + j]` when in range and padding with scalar zero otherwise. -/
def from_flat (arr : List ℚ) (h w : ℕ) : GMat :=
  mkMat h w (fun i j => if i * w + j < arr.length then arr.getD (i * w + j) 0 else 0)

/-- Model of `Matrix::mul_mat`: the assertion
`self.width == rhs.height && self.height == rhs.width` (a failure is `none`),
then the triple loop accumulating `result[y][x] += self[y][i] * rhs[i][x]`
onto the zero matrix `from_flat(&[], self.height, rhs.width)`. -/
def mul_mat (a b : GMat) : Option GMat :=
  if get_width a = get_height b ∧ get_height a = get_width b then
    some (mkMat (get_height a) (get_width b)
      (fun y x => ∑ i in Finset.range (get_width a), getv a y i * getv b i x))
  else none

/-- Model of `MatrixBase::get_col_vec(index)`: the column as a plain list. -/
def get_col_vec (m : GMat) (index : ℕ) : List ℚ :=
  (List.range (get_height m)).map (fun i => getv m i index)

/-- Model of `MatrixBase::get_row_vec(index)`: the row as a plain list. -/
def get_row_vec (m : GMat) (index : ℕ) : List ℚ :=
  (List.range (get_width m)).map (fun j => getv m index j)

/-- Model of `Matrix::mul_row_vec(v)`: asserts `self.height == v.n_elems()`,
copies `v`, then for `i` in `0..self.width` sets component `i` to
`array_dot(v, self.get_col_vec(i))`. `set_value` indexes the copy's backing
array, so the loop panics (`none`) as soon as `i` reaches `v.n_elems()`,
i.e. whenever `self.width > v.n_elems()`; components at indices `>= width`
keep the values copied from `v`. -/
def mul_row_vec (m : GMat) (v : List ℚ) : Option (List ℚ) :=
  if get_height m = v.length then
    if get_width m ≤ v.length then
      some ((List.range v.length).map
        (fun i => if i < get_width m then array_dot v (get_col_vec m i) else v.getD i 0))
    else none
  else none

/-- Model of `Matrix::mul_col_vec(v)`: asserts `self.width == v.n_elems()`,
copies `v`, then for `i` in `0..self.height` sets component `i` to
`array_dot(v, self.get_row_vec(i))`; panics (`none`) when
`self.height > v.n_elems()`. -/
def mul_col_vec (m : GMat) (v : List ℚ) : Option (List ℚ) :=
  if get_width m = v.length then
    if get_height m ≤ v.length then
      some ((List.range v.length).map
        (fun i => if i < get_height m then array_dot v (get_row_vec m i) else v.getD i 0))
    else none
  else none

/-- Index map of the cofactor packing loop: the rank of a kept row (resp.
column) among rows (resp. columns) other than the deleted one. The source's
loop writes the kept cells in row-major order into positions `(i, j)` with `j`
wrapping at `n - 1`; since each kept row contributes exactly `n - 1` cells,
cell `(i, j)` of the result receives cell `(skipIdx p i, skipIdx q j)` of the
input. -/
def skipIdx (p i : ℕ) : ℕ :=
  if i < p then i else i + 1

/-- Model of `SquareMatrix::get_cofactor(p, q, n)`: starts from `cm_copy`
(so cells outside the written leading `(n-1) × (n-1)` block keep the original
values) and packs the cells of the leading `n × n` block with row `p` and
column `q` deleted, in row-major order, into the leading block. -/
def get_cofactor (f : ℕ → ℕ → ℚ) (p q n : ℕ) : ℕ → ℕ → ℚ :=
  fun i j => if i < n - 1 ∧ j < n - 1 then f (skipIdx p i) (skipIdx q j) else f i j

/-- Model of `SquareMatrix::determinant_recursive(n)`: base cases `n = 1` and
`n = 2`; otherwise Laplace expansion along row 0, the running `sign` starting
at `one()` and being negated (`neg`, i.e. `* -1`) each iteration, hence
`(-1) ^ i` at column `i`. For `n = 0` the expansion loop is empty and the
accumulator `det = zero()` is returned. -/
def determinant_recursive : ℕ → (ℕ → ℕ → ℚ) → ℚ
  | 0, _ => 0
  | 1, f => f 0 0
  | 2, f => f 0 0 * f 1 1 - f 0 1 * f 1 0
  | n + 3, f =>
    ∑ i in Finset.range (n + 3),
      (-1) ^ i * f 0 i * determinant_recursive (n + 2) (get_cofactor f 0 i (n + 3))

/-- Sign used by `SquareMatrix::adjoint`: `one()` when `(i + j) % 2 == 0`,
else `neg(one())`. -/
def sgn (k : ℕ) : ℚ :=
  if k % 2 = 0 then 1 else -1

/-- Model of `SquareMatrix::adjoint`: starts from `cm_copy` and writes, for
every `(i, j)` in the leading block, `sign(i+j) * det(cofactor(i, j, n))` at
the TRANSPOSED position `(j, i)`; so cell `(a, b)` of the result (with
`a, b < n`) is `sgn (b + a) * determinant_recursive (n-1) (get_cofactor f b a n)`. -/
def adjoint (f : ℕ → ℕ → ℚ) (n : ℕ) : ℕ → ℕ → ℚ :=
  fun a b =>
    if a < n ∧ b < n then sgn (b + a) * determinant_recursive (n - 1) (get_cofactor f b a n)
    else f a b

/-- Model of `Matrix::div_num` on a square `n × n` matrix: `num_operand`
divides every cell of the leading `height × width` block of a `cm_copy`. -/
def sq_div_num (f : ℕ → ℕ → ℚ) (n : ℕ) (d : ℚ) : ℕ → ℕ → ℚ :=
  fun a b => if a < n ∧ b < n then f a b / d else f a b

/-- Model of `SquareMatrix::determinant`:
`determinant_recursive(get_size())`. -/
def determinant (f : ℕ → ℕ → ℚ) (n : ℕ) : ℚ :=
  determinant_recursive n f

/-- Model of the default `SquareMatrix::inverse`:
`self.adjoint().div_num(self.determinant())`. `GenericMatrix` and `Mat2`
inherit this default; `Mat4` overrides it (see `mat4_inverse`). -/
def inverse (f : ℕ → ℕ → ℚ) (n : ℕ) : ℕ → ℕ → ℚ :=
  sq_div_num (adjoint f n) n (determinant f n)

/-- Model of `Matrix::mul_mat` specialised to two square `n × n` operands
(the conformability assertion holds trivially): the triple loop on the zero
matrix, so the cell is the dot of row `y` of `f` with column `x` of `g`, and
cells outside the `n × n` block are zero. -/
def sq_mul (f g : ℕ → ℕ → ℚ) (n : ℕ) : ℕ → ℕ → ℚ :=
  fun y x => if y < n ∧ x < n then ∑ i in Finset.range n, f y i * g i x else 0

/-- Model of the `Mat4` override of `SquareMatrix::inverse` (the rigid
transform fast path): starts from the zero matrix `from_flat(&[], 4, 4)`,
transposes the leading 3×3 block, zeroes the last column's first three
entries, sets the last row to the negated dot products of the source's last
row against the transposed block's columns, and sets cell `(3, 3)` to one. -/
def mat4_inverse (f : ℕ → ℕ → ℚ) : ℕ → ℕ → ℚ :=
  fun a b =>
    if a < 3 ∧ b < 3 then f b a
    else if a < 3 ∧ b = 3 then 0
    else if a = 3 ∧ b < 3 then -(f 3 0 * f b 0 + f 3 1 * f b 1 + f 3 2 * f b 2)
    else if a = 3 ∧ b = 3 then 1
    else 0

/-- The leading `n × n` block of a cell function, as a Mathlib matrix (used to
relate the embedded cofactor-expansion algorithms to Mathlib's determinant
theory). -/
def toMat (f : ℕ → ℕ → ℚ) (n : ℕ) : Matrix (Fin n) (Fin n) ℚ :=
  Matrix.of fun i j => f i j

/-! ## Helper lemmas -/

theorem getD_map_range (n : ℕ) (g : ℕ → ℚ) (i : ℕ) (hi : i < n) :
    ((List.range n).map g).getD i 0 = g i := by
  rw [List.getD_eq_getElem _ _ (by simpa using hi)]
  simp

theorem height_mkMat (h w : ℕ) (g : ℕ → ℕ → ℚ) : get_height (mkMat h w g) = h := by
  simp [get_height, mkMat]

theorem width_mkMat (h w : ℕ) (g : ℕ → ℕ → ℚ) :
    get_width (mkMat h w g) = if h = 0 then 0 else w := by
  rcases h with _ | h
  · simp [get_width, mkMat]
  · simp [get_width, mkMat, List.range_succ_eq_map]

theorem getv_mkMat (h w : ℕ) (g : ℕ → ℕ → ℚ) (i j : ℕ) (hi : i < h) (hj : j < w) :
    getv (mkMat h w g) i j = g i j := by
  unfold getv mkMat
  have hrow :
      ((List.range h).map (fun i => (List.range w).map (fun j => g i j))).getD i [] =
        (List.range w).map (fun j => g i j) := by
    rw [List.getD_eq_getElem _ _ (by simpa using hi)]
    simp
  rw [hrow]
  exact getD_map_range w (fun j => g i j) j hj

theorem WF_mkMat (h w : ℕ) (g : ℕ → ℕ → ℚ) : WF (mkMat h w g) := by
  intro r hr
  rw [width_mkMat]
  rcases List.mem_map.mp hr with ⟨i, hi, rfl⟩
  have : h ≠ 0 := by
    rintro rfl
    simp [mkMat] at hi
  simp [this]

/-! ## C2 and C10: unsigned negation -/

/-- C2 counterexample: `neg(1)` on an unsigned scalar does not panic; it
returns `1` (the negation multiplier of the unsigned instantiations is `+1`,
and `1 * a` cannot overflow), refuting the claim that `neg` on a nonzero
unsigned value is a fatal error. -/
theorem neg_unsigned_one_returns : negUnsigned 32 1 = some 1 := by decide

/-- C2 (amended): for every unsigned width and every nonzero value of that
width, `neg` does not panic and returns the value unchanged. -/
theorem neg_unsigned_nonzero_total (w a : ℕ) (ha : a < 2 ^ w) (hnz : a ≠ 0) :
    negUnsigned w a = some a := by
  simp [negUnsigned, ha]

/-- Witness for `neg_unsigned_nonzero_total` at `w = 8`, `a = 7`. -/
theorem neg_unsigned_nonzero_total_witness :
    7 < 2 ^ 8 ∧ (7 : ℕ) ≠ 0 ∧ negUnsigned 8 7 = some 7 :=
  ⟨by decide, by decide, neg_unsigned_nonzero_total 8 7 (by decide) (by decide)⟩

/-- C10: for every unsigned integer scalar type (width `w`) and every value
`a` of that type, `neg(a)` returns `a` unchanged and never panics, because
the unsigned instantiations of `charmath_numeric!` use a negation multiplier
of `+1`. -/
theorem neg_unsigned_identity (w a : ℕ) (ha : a < 2 ^ w) :
    negUnsigned w a = some a := by
  simp [negUnsigned, ha]

/-- Witness for `neg_unsigned_identity` at `w = 32`, `a = 5`. -/
theorem neg_unsigned_identity_witness :
    5 < 2 ^ 32 ∧ negUnsigned 32 5 = some 5 :=
  ⟨by decide, neg_unsigned_identity 32 5 (by decide)⟩

/-! ## C9: fixed-arity constructor `new_arr` -/

/-- C9: `new_arr(arr)` never panics (it is total); the result has exactly
`size` components, component `i` equals `arr[i]` for every `i` below both the
arity and `arr.len()`, every remaining component up to the arity is scalar
zero, and elements of `arr` beyond the arity are ignored. -/
theorem new_arr_spec (size : ℕ) (arr : List ℚ) :
    (new_arr size arr).length = size ∧
    (∀ i, i < size → i < arr.length → (new_arr size arr).getD i 0 = arr.getD i 0) ∧
    (∀ i, i < size → arr.length ≤ i → (new_arr size arr).getD i 0 = 0) ∧
    new_arr size arr = new_arr size (arr.take size) := by
  refine ⟨by simp [new_arr], ?_, ?_, ?_⟩
  · intro i hi ha
    rw [new_arr, getD_map_range size _ i hi]
    simp [ha]
  · intro i hi ha
    rw [new_arr, getD_map_range size _ i hi]
    simp [Nat.not_lt.mpr ha]
  · unfold new_arr
    refine List.map_congr_left ?_
    intro i hi
    rw [List.mem_range] at hi
    by_cases h : i < arr.length
    · have harr : i < (arr.take size).length := by
        simp [List.length_take]
        omega
      rw [if_pos h, if_pos harr, List.getD_eq_getElem _ _ h, List.getD_eq_getElem _ _ harr]
      simp [List.getElem_take]
    · have harr : ¬ i < (arr.take size).length := by
        simp only [List.length_take]
        omega
      rw [if_neg h, if_neg harr]

/-- Witness for `new_arr_spec` at `size = 4`, `arr = [5, 6]`, checking the
component clauses at `i = 1` and `i = 3`. -/
theorem new_arr_spec_witness :
    (new_arr 4 [5, 6]).length = 4 ∧
    (new_arr 4 [5, 6]).getD 1 0 = 6 ∧ (new_arr 4 [5, 6]).getD 3 0 = 0 := by
  obtain ⟨h1, h2, h3, _⟩ := new_arr_spec 4 [5, 6]
  exact ⟨h1, by simpa using h2 1 (by decide) (by decide),
    by simpa using h3 3 (by decide) (by decide)⟩

/-! ## C6: `GenericMatrix::from_flat` -/

/-- C6 counterexample: `from_flat(arr, 0, 1)` produces a matrix with no rows,
so `get_width()` reports `0`, not the requested `1`; the claim that the result
always has `get_width() == w` fails at `h = 0`. -/
theorem from_flat_zero_height_width : get_width (from_flat [] 0 1) ≠ 1 := by
  decide

/-- C6 (amended): `from_flat(arr, h, w)` never panics (it is total); the
result has `get_height() == h` and, whenever `h > 0`, `get_width() == w`
(a height-0 matrix has no rows and reports width 0); cell `(i, j)` equals
`arr[i*w + j]` when `i*w + j < arr.len()` and scalar zero otherwise; and
elements of `arr` at index `h*w` or beyond are ignored. -/
theorem from_flat_spec (arr : List ℚ) (h w : ℕ) :
    get_height (from_flat arr h w) = h ∧
    (0 < h → get_width (from_flat arr h w) = w) ∧
    (∀ i j, i < h → j < w →
      getv (from_flat arr h w) i j =
        if i * w + j < arr.length then arr.getD (i * w + j) 0 else 0) ∧
    from_flat arr h w = from_flat (arr.take (h * w)) h w := by
  refine ⟨height_mkMat _ _ _, ?_, ?_, ?_⟩
  · intro hh
    rw [from_flat, width_mkMat, if_neg (Nat.pos_iff_ne_zero.mp hh)]
  · intro i j hi hj
    exact getv_mkMat _ _ _ i j hi hj
  · unfold from_flat mkMat
    refine List.map_congr_left ?_
    intro i hi
    rw [List.mem_range] at hi
    refine List.map_congr_left ?_
    intro j hj
    rw [List.mem_range] at hj
    dsimp only
    have hlt : i * w + j < h * w := by
      calc i * w + j < i * w + w := by omega
        _ = (i + 1) * w := by ring
        _ ≤ h * w := Nat.mul_le_mul_right w (by omega)
    by_cases hin : i * w + j < arr.length
    · have hin2 : i * w + j < (arr.take (h * w)).length := by
        simp [List.length_take]
        omega
      rw [if_pos hin, if_pos hin2, List.getD_eq_getElem _ _ hin, List.getD_eq_getElem _ _ hin2]
      simp [List.getElem_take]
    · have hin2 : ¬ i * w + j < (arr.take (h * w)).length := by
        simp only [List.length_take]
        omega
      rw [if_neg hin, if_neg hin2]

/-- Witness for `from_flat_spec` on concrete scenario 2 of the spec:
a 3×2 matrix built from a 6-element flat array. -/
theorem from_flat_spec_witness :
    get_height (from_flat [1, 9, 33/10, 1/5, 7/5, 341/100] 3 2) = 3 ∧
    get_width (from_flat [1, 9, 33/10, 1/5, 7/5, 341/100] 3 2) = 2 ∧
    getv (from_flat [1, 9, 33/10, 1/5, 7/5, 341/100] 3 2) 1 0 = 33/10 := by
  obtain ⟨h1, h2, h3, _⟩ := from_flat_spec [1, 9, 33/10, 1/5, 7/5, 341/100] 3 2
  exact ⟨h1, h2 (by decide), by simpa using h3 1 0 (by decide) (by decide)⟩

/-! ## C7: `Quaternion::angle_axis` -/

/-- C7: for every scalar `angle` and every 3-vector `axis` that is unit length
(`sqrt(axis . axis) = one`, the claim's standing assumption), `angle_axis`
returns the quaternion whose complex `(x, y, z)` part equals
`axis.normalized()` scaled by `sin(angle/2)` and whose real `w` part equals
`cos(angle/2)`. (The source scales the raw `axis`; under the unit-length
assumption `normalized` divides by `one` and the two agree.) -/
theorem angle_axis_spec (sin cos sqrt : ℚ → ℚ) (angle : ℚ) (axis : List ℚ)
    (hlen : axis.length = 3) (hunit : sqrt (array_dot axis axis) = 1) :
    angle_axis sin cos angle axis =
      complex_real (mul_num (normalized sqrt axis) (sin (angle * (1 / 2))))
        (cos (angle * (1 / 2))) := by
  obtain ⟨a, b, c, rfl⟩ := List.length_eq_three.mp hlen
  simp [angle_axis, complex_real, mul_num, normalized, div_num, vec_len, hunit]

/-- Witness for `angle_axis_spec` with the identity function standing in for
the abstract trig/sqrt methods, at `angle = 2`, `axis = (1, 0, 0)`. -/
theorem angle_axis_spec_witness :
    ([(1 : ℚ), 0, 0].length = 3 ∧ (fun q : ℚ => q) (array_dot [1, 0, 0] [1, 0, 0]) = 1) ∧
    angle_axis (fun q => q) (fun q => q) 2 [1, 0, 0] =
      complex_real (mul_num (normalized (fun q => q) [1, 0, 0]) ((fun q : ℚ => q) (2 * (1 / 2))))
        ((fun q : ℚ => q) (2 * (1 / 2))) :=
  ⟨⟨by decide, by norm_num [array_dot, Finset.sum_range_succ]⟩,
    angle_axis_spec (fun q => q) (fun q => q) (fun q => q) 2 [1, 0, 0] (by decide)
      (by norm_num [array_dot, Finset.sum_range_succ])⟩

/-! ## C1: `Matrix::mul_mat` -/

/-- C1: for well-formed matrices `a` and `b`, `mul_mat` panics exactly when
the source's conformability assertion
`a.width == b.height && a.height == b.width` fails; when it holds, the result
has `a.get_height()` rows and `b.get_width()` columns and its cell `(y, x)`
is `Σ_i a[y][i] * b[i][x]` with `i` ranging over `0..a.get_width()`. -/
theorem mul_mat_spec (a b : GMat) (ha : WF a) (hb : WF b) :
    ((mul_mat a b).isSome ↔ (get_width a = get_height b ∧ get_height a = get_width b)) ∧
    (∀ m, mul_mat a b = some m →
      get_height m = get_height a ∧ get_width m = get_width b ∧
      ∀ y x, y < get_height a → x < get_width b →
        getv m y x = ∑ i in Finset.range (get_width a), getv a y i * getv b i x) := by
  constructor
  · unfold mul_mat
    split
    case isTrue h => simp [h]
    case isFalse h => simp [h]
  · intro m hm
    unfold mul_mat at hm
    split at hm
    case isFalse => exact absurd hm (by simp)
    case isTrue hcond =>
      obtain ⟨rfl⟩ := Option.some_injective _ hm.symm
      refine ⟨height_mkMat _ _ _, ?_, ?_⟩
      · rw [width_mkMat]
        split
        case isTrue h0 =>
          rw [← hcond.2, h0]
        case isFalse => rfl
      · intro y x hy hx
        exact getv_mkMat _ _ _ y x hy hx

/-- Witness for `mul_mat_spec` at two concrete well-formed 2×2 matrices. -/
theorem mul_mat_spec_witness :
    WF [[(1 : ℚ), 2], [3, 4]] ∧ WF [[(5 : ℚ), 6], [7, 8]] ∧
    ((mul_mat [[(1 : ℚ), 2], [3, 4]] [[(5 : ℚ), 6], [7, 8]]).isSome ↔
      (get_width [[(1 : ℚ), 2], [3, 4]] = get_height [[(5 : ℚ), 6], [7, 8]] ∧
        get_height [[(1 : ℚ), 2], [3, 4]] = get_width [[(5 : ℚ), 6], [7, 8]])) :=
  ⟨by simp [WF, get_width], by simp [WF, get_width],
    (mul_mat_spec [[(1 : ℚ), 2], [3, 4]] [[(5 : ℚ), 6], [7, 8]]
      (by simp [WF, get_width]) (by simp [WF, get_width])).1⟩

/-! ## C8: `Matrix::mul_row_vec` and `Matrix::mul_col_vec` -/

/-- C8 counterexample: the 2×3 matrix `[[1,2,3],[4,5,6]]` and the arity-2
vector `(1, 1)` satisfy the claim's only stated precondition
`v.n_elems() == M.get_height()`, yet `mul_row_vec` panics (the loop calls
`set_value(2, _)` on an arity-2 vector), instead of returning a vector of
dot products as the claim states. -/
theorem mul_row_vec_counterexample :
    get_height [[(1 : ℚ), 2, 3], [4, 5, 6]] = [(1 : ℚ), 1].length ∧
    mul_row_vec [[(1 : ℚ), 2, 3], [4, 5, 6]] [1, 1] = none := by
  constructor
  · rfl
  · rfl

/-- C8 (amended): under well-formedness, `mul_row_vec` returns normally
exactly when `v.n_elems() == M.get_height()` AND `M.get_width() <=
v.n_elems()` (it panics otherwise — the claim's precondition misses the
second condition); the result keeps `v`'s arity, its component `i` for
`i < M.get_width()` is the dot product of `v` with column `i` of `M`, and
components at indices `>= M.get_width()` keep `v`'s original values.
Symmetrically, `mul_col_vec` returns normally exactly when
`v.n_elems() == M.get_width()` and `M.get_height() <= v.n_elems()`, with
component `i < M.get_height()` the dot product of `v` with row `i` of `M`. -/
theorem mul_vec_spec (m : GMat) (v : List ℚ) (hm : WF m) :
    ((mul_row_vec m v).isSome ↔ (get_height m = v.length ∧ get_width m ≤ v.length)) ∧
    (∀ r, mul_row_vec m v = some r →
      r.length = v.length ∧
      (∀ i, i < get_width m → r.getD i 0 = array_dot v (get_col_vec m i)) ∧
      (∀ i, get_width m ≤ i → i < v.length → r.getD i 0 = v.getD i 0)) ∧
    ((mul_col_vec m v).isSome ↔ (get_width m = v.length ∧ get_height m ≤ v.length)) ∧
    (∀ r, mul_col_vec m v = some r →
      r.length = v.length ∧
      (∀ i, i < get_height m → r.getD i 0 = array_dot v (get_row_vec m i)) ∧
      (∀ i, get_height m ≤ i → i < v.length → r.getD i 0 = v.getD i 0)) := by
  refine ⟨?_, ?_, ?_, ?_⟩
  · unfold mul_row_vec
    split
    case isTrue h1 =>
      split
      case isTrue h2 => simp [h1, h2]
      case isFalse h2 => simp [h1, h2]
    case isFalse h1 => simp [h1]
  · intro r hr
    unfold mul_row_vec at hr
    split at hr
    case isFalse => exact absurd hr (by simp)
    case isTrue h1 =>
      split at hr
      case isFalse => exact absurd hr (by simp)
      case isTrue h2 =>
        obtain ⟨rfl⟩ := Option.some_injective _ hr.symm
        refine ⟨by simp, ?_, ?_⟩
        · intro i hi
          rw [getD_map_range _ _ i (lt_of_lt_of_le hi h2)]
          simp [hi]
        · intro i hi hiv
          rw [getD_map_range _ _ i hiv]
          simp [Nat.not_lt.mpr hi]
  · unfold mul_col_vec
    split
    case isTrue h1 =>
      split
      case isTrue h2 => simp [h1, h2]
      case isFalse h2 => simp [h1, h2]
    case isFalse h1 => simp [h1]
  · intro r hr
    unfold mul_col_vec at hr
    split at hr
    case isFalse => exact absurd hr (by simp)
    case isTrue h1 =>
      split at hr
      case isFalse => exact absurd hr (by simp)
      case isTrue h2 =>
        obtain ⟨rfl⟩ := Option.some_injective _ hr.symm
        refine ⟨by simp, ?_, ?_⟩
        · intro i hi
          rw [getD_map_range _ _ i (lt_of_lt_of_le hi h2)]
          simp [hi]
        · intro i hi hiv
          rw [getD_map_range _ _ i hiv]
          simp [Nat.not_lt.mpr hi]

/-- Witness for `mul_vec_spec` at the square matrix `[[1,2],[3,4]]` and the
vector `(1, 1)`: both multiplications return normally. -/
theorem mul_vec_spec_witness :
    WF [[(1 : ℚ), 2], [3, 4]] ∧
    (mul_row_vec [[(1 : ℚ), 2], [3, 4]] [1, 1]).isSome ∧
    (mul_col_vec [[(1 : ℚ), 2], [3, 4]] [1, 1]).isSome := by
  have h := mul_vec_spec [[(1 : ℚ), 2], [3, 4]] [1, 1] (by simp [WF, get_width])
  exact ⟨by simp [WF, get_width], h.1.mpr (by constructor <;> rfl),
    h.2.2.1.mpr (by constructor <;> rfl)⟩

/-! ## Helper lemmas relating the embedded cofactor expansion to Mathlib -/

theorem val_succAbove {n : ℕ} (p : Fin (n + 1)) (i : Fin n) :
    ((p.succAbove i : Fin (n + 1)) : ℕ) = skipIdx (p : ℕ) (i : ℕ) := by
  unfold skipIdx
  rcases Nat.lt_or_ge (i : ℕ) (p : ℕ) with h | h
  · rw [Fin.succAbove_of_castSucc_lt _ _ (by rw [Fin.lt_def]; simpa using h)]
    simp [h]
  · rw [Fin.succAbove_of_le_castSucc _ _ (by rw [Fin.le_def]; simpa using h)]
    simp [Nat.not_lt.mpr h]

theorem toMat_cofactor {n : ℕ} (f : ℕ → ℕ → ℚ) (p q : Fin (n + 1)) :
    toMat (get_cofactor f (p : ℕ) (q : ℕ) (n + 1)) n =
      (toMat f (n + 1)).submatrix p.succAbove q.succAbove := by
  ext a b
  simp only [toMat, Matrix.of_apply, Matrix.submatrix_apply]
  unfold get_cofactor
  rw [if_pos ⟨a.isLt, b.isLt⟩]
  rw [← val_succAbove p a, ← val_succAbove q b]

theorem detRec_eq_det (n : ℕ) : ∀ f : ℕ → ℕ → ℚ,
    determinant_recursive (n + 1) f = (toMat f (n + 1)).det := by
  induction n using Nat.strong_induction_on with
  | _ n ih =>
    intro f
    rcases n with _ | n1
    · rw [Matrix.det_fin_one]
      rfl
    rcases n1 with _ | m
    · rw [Matrix.det_fin_two]
      rfl
    · rw [Matrix.det_succ_row_zero]
      have hsum :
          determinant_recursive (m + 3) f =
            ∑ i in Finset.range (m + 3),
              (-1) ^ i * f 0 i * determinant_recursive (m + 2) (get_cofactor f 0 i (m + 3)) :=
        rfl
      rw [hsum, ← Fin.sum_univ_eq_sum_range]
      refine Finset.sum_congr rfl ?_
      intro j _
      have hdet := ih (m + 1) (by omega) (get_cofactor f 0 (j : ℕ) (m + 3))
      rw [hdet]
      have hcof := toMat_cofactor f (0 : Fin (m + 3)) j
      simp only [Fin.val_zero] at hcof
      rw [hcof, Fin.succAbove_zero]
      rfl

theorem sgn_eq_pow (k : ℕ) : sgn k = (-1 : ℚ) ^ k := by
  unfold sgn
  rcases Nat.even_or_odd k with h | h
  · simp [Nat.even_iff.mp h, h.neg_one_pow]
  · have h2 : ¬ k % 2 = 0 := by
      rw [Nat.odd_iff] at h
      omega
    simp [h2, h.neg_one_pow]

theorem toMat_adjoint (m : ℕ) (f : ℕ → ℕ → ℚ) :
    toMat (adjoint f (m + 2)) (m + 2) = (toMat f (m + 2)).adjugate := by
  ext a b
  simp only [toMat, Matrix.of_apply]
  unfold adjoint
  rw [if_pos ⟨a.isLt, b.isLt⟩]
  rw [Matrix.adjugate_fin_succ_eq_det_submatrix, sgn_eq_pow]
  congr 1
  have hdet := detRec_eq_det m (get_cofactor f (b : ℕ) (a : ℕ) (m + 2))
  have hcof := toMat_cofactor f b a
  calc determinant_recursive (m + 2 - 1) (get_cofactor f (b : ℕ) (a : ℕ) (m + 2)) =
      (toMat (get_cofactor f (b : ℕ) (a : ℕ) (m + 2)) (m + 1)).det := hdet
    _ = ((toMat f (m + 2)).submatrix b.succAbove a.succAbove).det := by rw [hcof]

/-! ## C3: `inverse() = adjoint() / determinant()` -/

/-- C3 counterexample: `Mat4` overrides `inverse` with the rigid-transform
fast path, so for the 4×4 matrix `diag(2, 2, 2, 1)` cell `(0, 0)` of
`Mat4::inverse` is `2`, whereas `adjoint().div_num(determinant())` gives
`4 / 8 = 1/2`; the claim fails for the square-matrix type `Mat4`. -/
theorem mat4_inverse_counterexample :
    mat4_inverse (fun a b => if a = b ∧ a < 3 then 2 else if a = 3 ∧ b = 3 then 1 else 0) 0 0 ≠
      inverse (fun a b => if a = b ∧ a < 3 then 2 else if a = 3 ∧ b = 3 then 1 else 0) 4 0 0 := by
  have h1 :
      mat4_inverse (fun a b => if a = b ∧ a < 3 then 2 else if a = 3 ∧ b = 3 then 1 else 0) 0 0 =
        2 := by
    norm_num [mat4_inverse]
  have h2 :
      inverse (fun a b => if a = b ∧ a < 3 then 2 else if a = 3 ∧ b = 3 then 1 else 0) 4 0 0 =
        1 / 2 := by
    norm_num [inverse, sq_div_num, determinant, adjoint, sgn, determinant_recursive,
      get_cofactor, skipIdx, Finset.sum_range_succ, Finset.sum_range_zero]
  rw [h1, h2]
  norm_num

/-- C3 (amended): for the square-matrix types that keep the default
`SquareMatrix::inverse` (`GenericMatrix` and `Mat2`), every cell of
`inverse()` equals the corresponding cell of the adjoint divided by the
determinant, i.e. `inverse() = adjoint().div_num(determinant())`; `Mat4`
instead overrides `inverse` with the rigid-transform fast path
(`mat4_inverse`), for which this identity fails. -/
theorem inverse_default_spec (f : ℕ → ℕ → ℚ) (n a b : ℕ) (ha : a < n) (hb : b < n) :
    inverse f n a b = adjoint f n a b / determinant f n := by
  simp [inverse, sq_div_num, ha, hb]

/-- Witness for `inverse_default_spec` at a concrete 2×2 matrix and cell. -/
theorem inverse_default_spec_witness :
    (0 : ℕ) < 2 ∧ (1 : ℕ) < 2 ∧
    inverse (fun a b => if a = b then 2 else 0) 2 0 1 =
      adjoint (fun a b => if a = b then 2 else 0) 2 0 1 /
        determinant (fun a b => if a = b then 2 else 0) 2 :=
  ⟨by decide, by decide,
    inverse_default_spec (fun a b => if a = b then 2 else 0) 2 0 1 (by decide) (by decide)⟩

/-! ## C5: the adjoint-determinant relation -/

/-- C5 counterexample: for the 1×1 matrix `[[1]]`, `adjoint()` is `[[0]]`
(because `determinant_recursive(0)` returns the zero accumulator), so the
single diagonal cell of `M.mul_mat(M.adjoint())` is `0` while
`M.determinant()` is `1`; the adjoint-determinant relation fails at size 1. -/
theorem adjoint_size_one_counterexample :
    sq_mul (fun _ _ => (1 : ℚ)) (adjoint (fun _ _ => (1 : ℚ)) 1) 1 0 0 = 0 ∧
    determinant (fun _ _ => (1 : ℚ)) 1 = 1 := by
  constructor
  · norm_num [sq_mul, adjoint, determinant_recursive, sgn, Finset.sum_range_succ,
      Finset.sum_range_zero, get_cofactor]
  · rfl

/-- C5 (amended): for every square matrix of size `n = m + 2 >= 2` over the
exact scalar, every cell of `M.mul_mat(M.adjoint())` inside the block equals
the determinant on the diagonal and zero off it, i.e.
`M.mul_mat(M.adjoint()) = M.determinant() * identity(n)`. (At `n = 1` the
relation fails — see the counterexample — because the adjoint of a 1×1 matrix
is `[[0]]`; at `n = 0` there are no cells.) -/
theorem mul_adjoint_spec (m : ℕ) (f : ℕ → ℕ → ℚ) (y x : ℕ)
    (hy : y < m + 2) (hx : x < m + 2) :
    sq_mul f (adjoint f (m + 2)) (m + 2) y x =
      if y = x then determinant f (m + 2) else 0 := by
  have hmul :
      sq_mul f (adjoint f (m + 2)) (m + 2) y x =
        (toMat f (m + 2) * (toMat f (m + 2)).adjugate) ⟨y, hy⟩ ⟨x, hx⟩ := by
    rw [Matrix.mul_apply, ← toMat_adjoint]
    unfold sq_mul
    rw [if_pos ⟨hy, hx⟩, ← Fin.sum_univ_eq_sum_range
      (fun i => f y i * adjoint f (m + 2) i x) (m + 2)]
    rfl
  rw [hmul, Matrix.mul_adjugate]
  have hdet : (toMat f (m + 2)).det = determinant f (m + 2) :=
    (detRec_eq_det (m + 1) f).symm
  by_cases hyx : y = x
  · subst hyx
    simp [Matrix.smul_apply, Matrix.one_apply, hdet]
  · have : (⟨y, hy⟩ : Fin (m + 2)) ≠ ⟨x, hx⟩ := by
      simpa [Fin.mk.injEq] using hyx
    simp [Matrix.smul_apply, Matrix.one_apply, this, hyx]

/-- Witness for `mul_adjoint_spec` at size 2 on a concrete matrix, checking a
diagonal and an off-diagonal cell. -/
theorem mul_adjoint_spec_witness :
    sq_mul (fun a b => if a = b then 2 else 3) (adjoint (fun a b => if a = b then 2 else 3) 2)
        2 0 0 =
      determinant (fun a b => if a = b then 2 else 3) 2 ∧
    sq_mul (fun a b => if a = b then 2 else 3) (adjoint (fun a b => if a = b then 2 else 3) 2)
        2 0 1 = 0 := by
  have h1 := mul_adjoint_spec 0 (fun a b => if a = b then 2 else 3) 0 0 (by omega) (by omega)
  have h2 := mul_adjoint_spec 0 (fun a b => if a = b then 2 else 3) 0 1 (by omega) (by omega)
  exact ⟨by simpa using h1, by simpa using h2⟩

/-! ## C4: the rigid-transform fast-path inverse round trip -/

/-- C4: for every 4×4 matrix over the exact scalar whose leading 3×3 block
has orthonormal rows and whose last column is `(0, 0, 0, 1)` (a rigid
rotation-plus-translation transform in the row-vector convention),
`M.mul_mat(M.inverse())` — with `Mat4`'s specialised `inverse` that
transposes the 3×3 block and sets the last row to the negated dot products of
the translation row against the transposed rotation rows — equals the 4×4
identity matrix, cell by cell. -/
theorem mat4_rigid_inverse_spec (f : ℕ → ℕ → ℚ)
    (hc0 : f 0 3 = 0) (hc1 : f 1 3 = 0) (hc2 : f 2 3 = 0) (hc3 : f 3 3 = 1)
    (h00 : f 0 0 * f 0 0 + f 0 1 * f 0 1 + f 0 2 * f 0 2 = 1)
    (h11 : f 1 0 * f 1 0 + f 1 1 * f 1 1 + f 1 2 * f 1 2 = 1)
    (h22 : f 2 0 * f 2 0 + f 2 1 * f 2 1 + f 2 2 * f 2 2 = 1)
    (h01 : f 0 0 * f 1 0 + f 0 1 * f 1 1 + f 0 2 * f 1 2 = 0)
    (h02 : f 0 0 * f 2 0 + f 0 1 * f 2 1 + f 0 2 * f 2 2 = 0)
    (h12 : f 1 0 * f 2 0 + f 1 1 * f 2 1 + f 1 2 * f 2 2 = 0)
    (y x : ℕ) (hy : y < 4) (hx : x < 4) :
    sq_mul f (mat4_inverse f) 4 y x = if y = x then 1 else 0 := by
  interval_cases y <;> interval_cases x <;>
    norm_num [sq_mul, mat4_inverse, Finset.sum_range_succ, Finset.sum_range_zero] <;>
    (try simp only [hc0, hc1, hc2, hc3, zero_mul, mul_zero, neg_zero, add_zero, zero_add,
      one_mul, mul_one]) <;>
    first
    | ring1
    | linear_combination h00
    | linear_combination h11
    | linear_combination h22
    | linear_combination h01
    | linear_combination h02
    | linear_combination h12

/-- Witness for `mat4_rigid_inverse_spec` at the rigid transform with rotation
by 90 degrees about the z axis and translation `(1, 2, 3)`, checking cells
`(0, 0)` and `(3, 0)` of the round trip. -/
theorem mat4_rigid_inverse_spec_witness :
    sq_mul (fun a b => getv [[0, 1, 0, 0], [-1, 0, 0, 0], [0, 0, 1, 0], [1, 2, 3, 1]] a b)
        (mat4_inverse
          (fun a b => getv [[0, 1, 0, 0], [-1, 0, 0, 0], [0, 0, 1, 0], [1, 2, 3, 1]] a b))
        4 0 0 = 1 ∧
    sq_mul (fun a b => getv [[0, 1, 0, 0], [-1, 0, 0, 0], [0, 0, 1, 0], [1, 2, 3, 1]] a b)
        (mat4_inverse
          (fun a b => getv [[0, 1, 0, 0], [-1, 0, 0, 0], [0, 0, 1, 0], [1, 2, 3, 1]] a b))
        4 3 0 = 0 := by
  have key := mat4_rigid_inverse_spec
    (fun a b => getv [[0, 1, 0, 0], [-1, 0, 0, 0], [0, 0, 1, 0], [1, 2, 3, 1]] a b)
    (by norm_num [getv]) (by norm_num [getv]) (by norm_num [getv]) (by norm_num [getv])
    (by norm_num [getv]) (by norm_num [getv]) (by norm_num [getv])
    (by norm_num [getv]) (by norm_num [getv]) (by norm_num [getv])
  exact ⟨by simpa using key 0 0 (by norm_num) (by norm_num),
    by simpa using key 3 0 (by norm_num) (by norm_num)⟩

end Charmath
